import Mathlib

/-!
Verification development for the mind-map visualizer of XMindGenerator
(`src/visualizer.py`, class `MindMapVisualizer`).

The drawing pipeline is shallowly embedded.  Node positions are real-valued
functions translated from the layout arithmetic in `_draw_radial_layout`,
`_draw_branch_layout`, `_draw_leaf_layout` and `_draw_curved_connection`.
The drawing methods themselves are modelled as producers of an event trace:
each node box drawn, each connection drawn, and the final `canvas.save()`
become events in a list, so that counting and omission claims can be stated
over the trace.  The text wrapper `_wrap_text` is embedded as a computable
function over lists of characters (Python `str.split()` semantics).
-/

open Real

namespace XMind

/-- A topic node of the input hierarchy: a `text` label plus the list of
child topics stored under the `subtopics` key (`topic.get('subtopics', [])`,
so an absent key is modelled as `[]`). -/
inductive Topic : Type where
  | mk : String → List Topic → Topic

/-- The `text` field of a topic (`topic['text']`). -/
def Topic.text : Topic → String
  | .mk t _ => t

/-- The `subtopics` field of a topic (`topic.get('subtopics', [])`). -/
def Topic.subtopics : Topic → List Topic
  | .mk _ s => s

/-- The hierarchy dict passed to `create_mindmap`; both keys are read with
`hierarchy.get(...)` and a default, so each is optional. -/
structure Hierarchy : Type where
  central_topic : Option String
  main_topics : Option (List Topic)

/-- Node style kind selected in `_draw_node` (`'central'/'main'/'sub'/'leaf'`). -/
inductive NodeKind : Type where
  | central
  | main
  | sub
  | leaf
  deriving DecidableEq

/-- One observable drawing action of the visualizer:
`node text x y kind` for `_draw_node`, `conn x1 y1 x2 y2 curved` for
`_draw_curved_connection` (curved = true) or `_draw_connection`
(curved = false), and `save` for `canvas.save()`. -/
inductive Event : Type where
  | node : String → ℝ → ℝ → NodeKind → Event
  | conn : ℝ → ℝ → ℝ → ℝ → Bool → Event
  | save : Event

noncomputable section

/-- `_draw_radial_layout`: angle of the `i`-th of `n` main topics,
`angle = (3 * math.pi / 2) + (i * angle_step)` with
`angle_step = 2 * math.pi / num_topics`. -/
def main_topic_angle (n i : ℕ) : ℝ := 3 * π / 2 + i * (2 * π / n)

/-- `topic_x = center_x + radius * math.cos(angle)` with `radius = 300`. -/
def main_topic_x (center_x : ℝ) (n i : ℕ) : ℝ :=
  center_x + 300 * Real.cos (main_topic_angle n i)

/-- `topic_y = center_y + radius * math.sin(angle)` with `radius = 300`. -/
def main_topic_y (center_y : ℝ) (n i : ℕ) : ℝ :=
  center_y + 300 * Real.sin (main_topic_angle n i)

/-- `_draw_radial_layout`: `is_right_side = topic_x > center_x`. -/
def is_right_side (topic_x center_x : ℝ) : Bool := decide (topic_x > center_x)

/-- `_draw_branch_layout`: `base_angle = 0` for the right side,
`math.pi` for the left side. -/
def branch_base_angle (right_side : Bool) : ℝ := if right_side then 0 else π

/-- `_draw_branch_layout`: `angle_step = angle_range / (num_subtopics - 1)`
when `num_subtopics > 1`, else `0`; `angle_range = math.pi / 3`. -/
def branch_angle_step (n : ℕ) : ℝ := if 1 < n then (π / 3) / ((n : ℝ) - 1) else 0

/-- `_draw_branch_layout`: `start_angle = base_angle - (angle_range / 2)`. -/
def branch_start_angle (right_side : Bool) : ℝ :=
  branch_base_angle right_side - (π / 3) / 2

/-- `_draw_branch_layout`: `subtopic_angle = start_angle + (i * angle_step)`. -/
def subtopic_angle (right_side : Bool) (n i : ℕ) : ℝ :=
  branch_start_angle right_side + i * branch_angle_step n

/-- `subtopic_x = parent_x + branch_length * math.cos(subtopic_angle)`,
`branch_length = 230`. -/
def subtopic_x (parent_x : ℝ) (right_side : Bool) (n i : ℕ) : ℝ :=
  parent_x + 230 * Real.cos (subtopic_angle right_side n i)

/-- `subtopic_y = parent_y + branch_length * math.sin(subtopic_angle)`,
`branch_length = 230`. -/
def subtopic_y (parent_y : ℝ) (right_side : Bool) (n i : ℕ) : ℝ :=
  parent_y + 230 * Real.sin (subtopic_angle right_side n i)

/-- `_draw_leaf_layout`: `leaf_x = parent_x + (h_direction * leaf_distance)`
with `h_direction = 1 if is_right_side else -1` and `leaf_distance = 180`. -/
def leaf_x (parent_x : ℝ) (right_side : Bool) : ℝ :=
  parent_x + (if right_side then (1 : ℝ) else -1) * 180

/-- `_draw_leaf_layout`: `start_y = parent_y + (total_height / 2)` with
`total_height = (len(leaf_nodes) - 1) * v_spacing` and `v_spacing = 80`. -/
def leaf_start_y (parent_y : ℝ) (n : ℕ) : ℝ := parent_y + ((n : ℝ) - 1) * 80 / 2

/-- `_draw_leaf_layout`: `leaf_y = start_y - (i * v_spacing)`, `v_spacing = 80`. -/
def leaf_y (parent_y : ℝ) (n i : ℕ) : ℝ := leaf_start_y parent_y n - i * 80

/-- `_draw_curved_connection`: the distance between the two endpoints,
`math.sqrt((x2 - x1)**2 + (y2 - y1)**2)`. -/
def point_distance (x1 y1 x2 y2 : ℝ) : ℝ :=
  Real.sqrt ((x2 - x1) ^ 2 + (y2 - y1) ^ 2)

/-- `_draw_curved_connection`: the single Bezier control point `(cx1, cy1)`,
computed as the midpoint offset along the unit perpendicular by
`ctrl_distance = distance * 0.2`, with the perpendicular special-cased to
zero when the segment length is not positive. -/
def ctrl_point (x1 y1 x2 y2 : ℝ) : ℝ × ℝ :=
  let mid_x := (x1 + x2) / 2
  let mid_y := (y1 + y2) / 2
  let distance := point_distance x1 y1 x2 y2
  let dx := x2 - x1
  let dy := y2 - y1
  let length := Real.sqrt (dx ^ 2 + dy ^ 2)
  let perpx := if length > 0 then -(dy / length) else 0
  let perpy := if length > 0 then dx / length else 0
  let ctrl_distance := distance * 0.2
  (mid_x + perpx * ctrl_distance, mid_y + perpy * ctrl_distance)

/-- `_draw_leaf_layout`: straight connector plus node box for each leaf;
returns the event trace.  The `parent_angle` argument is received but unused,
as in the source. -/
def draw_leaf_layout (leaf_nodes : List Topic) (parent_x parent_y : ℝ)
    (_parent_angle : ℝ) (right_side : Bool) : List Event :=
  if leaf_nodes.isEmpty then [] else
  leaf_nodes.enum.flatMap fun p =>
    [Event.conn parent_x parent_y (leaf_x parent_x right_side)
        (leaf_y parent_y leaf_nodes.length p.1) false,
     Event.node p.2.text (leaf_x parent_x right_side)
        (leaf_y parent_y leaf_nodes.length p.1) NodeKind.leaf]

/-- `_draw_branch_layout`: curved connector plus node box for each subtopic,
then that subtopic's leaf layout when it has leaf nodes. -/
def draw_branch_layout (subtopics : List Topic) (parent_x parent_y : ℝ)
    (_parent_angle : ℝ) (right_side : Bool) : List Event :=
  if subtopics.isEmpty then [] else
  subtopics.enum.flatMap fun p =>
    [Event.conn parent_x parent_y (subtopic_x parent_x right_side subtopics.length p.1)
        (subtopic_y parent_y right_side subtopics.length p.1) true,
     Event.node p.2.text (subtopic_x parent_x right_side subtopics.length p.1)
        (subtopic_y parent_y right_side subtopics.length p.1) NodeKind.sub]
      ++ (if p.2.subtopics.isEmpty then [] else
          draw_leaf_layout p.2.subtopics
            (subtopic_x parent_x right_side subtopics.length p.1)
            (subtopic_y parent_y right_side subtopics.length p.1)
            (subtopic_angle right_side subtopics.length p.1) right_side)

/-- `_draw_radial_layout`: curved connector plus node box for each main topic,
then that topic's branch layout when it has subtopics, with the side
classified by `is_right_side`. -/
def draw_radial_layout (main_topics : List Topic) (center_x center_y : ℝ) :
    List Event :=
  if main_topics.isEmpty then [] else
  main_topics.enum.flatMap fun p =>
    [Event.conn center_x center_y (main_topic_x center_x main_topics.length p.1)
        (main_topic_y center_y main_topics.length p.1) true,
     Event.node p.2.text (main_topic_x center_x main_topics.length p.1)
        (main_topic_y center_y main_topics.length p.1) NodeKind.main]
      ++ (if p.2.subtopics.isEmpty then [] else
          draw_branch_layout p.2.subtopics
            (main_topic_x center_x main_topics.length p.1)
            (main_topic_y center_y main_topics.length p.1)
            (main_topic_angle main_topics.length p.1)
            (is_right_side (main_topic_x center_x main_topics.length p.1) center_x))

/-- Landscape A2 page width from `reportlab` (`594 mm` at 72 points/inch). -/
def page_width : ℝ := 594 * (72 / 25.4)

/-- Landscape A2 page height from `reportlab` (`420 mm` at 72 points/inch). -/
def page_height : ℝ := 420 * (72 / 25.4)

/-- `create_mindmap`: draw the central node at the page center; if there are
no main topics, save and return; otherwise draw the radial layout and save. -/
def create_mindmap (hierarchy : Hierarchy) : List Event :=
  let center_x := page_width / 2
  let center_y := page_height / 2
  let central_topic := hierarchy.central_topic.getD "Mind Map"
  let main_topics := hierarchy.main_topics.getD []
  Event.node central_topic center_x center_y NodeKind.central ::
    (if main_topics.isEmpty then [Event.save]
     else draw_radial_layout main_topics center_x center_y ++ [Event.save])

end

/-- Discriminator: is this event a drawn node box? -/
def Event.isNode : Event → Bool
  | .node _ _ _ _ => true
  | _ => false

/-- Discriminator: is this event a drawn connector? -/
def Event.isConn : Event → Bool
  | .conn _ _ _ _ _ => true
  | _ => false

/-- Discriminator: is this event the canvas being saved? -/
def Event.isSave : Event → Bool
  | .save => true
  | _ => false

/-- Number of node boxes drawn in a trace. -/
def count_nodes (es : List Event) : ℕ := es.countP Event.isNode

/-- Number of connectors drawn in a trace. -/
def count_conns (es : List Event) : ℕ := es.countP Event.isConn

/-- Number of times the canvas is saved in a trace. -/
def count_saves (es : List Event) : ℕ := es.countP Event.isSave

/-- Helper for `split_words`: scan the characters, accumulating the current
word reversed in `acc` and emitting it when whitespace or the end is hit. -/
def split_words_aux : List Char → List Char → List (List Char)
  | [], acc => if acc.isEmpty then [] else [acc.reverse]
  | c :: cs, acc =>
    if c.isWhitespace then
      if acc.isEmpty then split_words_aux cs [] else acc.reverse :: split_words_aux cs []
    else split_words_aux cs (c :: acc)

/-- Python `text.split()` as used by `_wrap_text`: split on runs of
whitespace, producing no empty words. -/
def split_words (text : List Char) : List (List Char) := split_words_aux text []

/-- Python `' '.join(current_line)`. -/
def join_space (current_line : List (List Char)) : List Char :=
  List.intercalate [' '] current_line

/-- The greedy loop of `_wrap_text` over the word list: flush `current_line`
when appending the next word would exceed `max_width`, else accumulate. -/
def wrap_words (max_width : ℕ) : List (List Char) → List (List Char) → List (List Char)
  | current_line, [] => if current_line.isEmpty then [] else [join_space current_line]
  | current_line, word :: ws =>
    if ¬ current_line.isEmpty ∧ (join_space (current_line ++ [word])).length > max_width then
      join_space current_line :: wrap_words max_width [word] ws
    else wrap_words max_width (current_line ++ [word]) ws

/-- The `lines` list built by `_wrap_text` before the 4-line cap. -/
def wrap_lines (text : List Char) (max_width : ℕ) : List (List Char) :=
  wrap_words max_width [] (split_words text)

/-- `_wrap_text(text, max_width)`: greedy wrap, then cap at 4 lines by
keeping the first 3 and appending a literal `"..."` line. -/
def wrap_text (text : List Char) (max_width : ℕ) : List (List Char) :=
  let lines := wrap_lines text max_width
  if lines.length > 4 then lines.take 3 ++ [['.', '.', '.']] else lines

/-- Drop all children of a topic (used to express that children of depth-3
nodes are never drawn). -/
def strip_topic (t : Topic) : Topic := Topic.mk t.text []

/-- Truncate a depth-2 subtopic: keep its leaf children, drop anything below. -/
def truncate_sub (t : Topic) : Topic := Topic.mk t.text (t.subtopics.map strip_topic)

/-- Truncate a depth-1 main topic to three drawn levels below the center. -/
def truncate_main (t : Topic) : Topic := Topic.mk t.text (t.subtopics.map truncate_sub)

/-- Truncate a hierarchy to the three drawn levels below the central topic. -/
def truncate_hierarchy (h : Hierarchy) : Hierarchy :=
  ⟨h.central_topic, h.main_topics.map fun l => l.map truncate_main⟩

/-- Number of drawn nodes contributed by one main topic: itself, its
subtopics, and their immediate children. -/
def topic_count3 (m : Topic) : ℕ :=
  1 + (m.subtopics.map fun s => 1 + s.subtopics.length).sum

/-- Number of nodes drawn for a hierarchy: the central node plus the
depth-at-most-3 topics. -/
def node_count3 (h : Hierarchy) : ℕ :=
  1 + ((h.main_topics.getD []).map topic_count3).sum

/-! ### Geometry helper lemmas -/

lemma cos_three_pi_div_two : Real.cos (3 * π / 2) = 0 := by
  rw [show (3 : ℝ) * π / 2 = π + π / 2 by ring, Real.cos_add, Real.cos_pi, Real.sin_pi]
  simp

lemma sin_three_pi_div_two : Real.sin (3 * π / 2) = -1 := by
  rw [show (3 : ℝ) * π / 2 = π + π / 2 by ring, Real.sin_add, Real.cos_pi, Real.sin_pi]
  simp

/-- Distance from a point to its polar offset by radius `r` at any angle. -/
lemma point_distance_polar (px py r θ : ℝ) (hr : 0 ≤ r) :
    point_distance px py (px + r * Real.cos θ) (py + r * Real.sin θ) = r := by
  have e : (px + r * Real.cos θ - px) ^ 2 + (py + r * Real.sin θ - py) ^ 2 = r ^ 2 := by
    have h := Real.sin_sq_add_cos_sq θ
    calc (px + r * Real.cos θ - px) ^ 2 + (py + r * Real.sin θ - py) ^ 2
        = r ^ 2 * (Real.sin θ ^ 2 + Real.cos θ ^ 2) := by ring
      _ = r ^ 2 := by rw [h, mul_one]
  rw [point_distance, e, Real.sqrt_sq hr]

/-- C1: for every tree with `N ≥ 1` main topics, every main-topic placement
lies at distance exactly 300 from the page center, the `i`-th topic sits at
angle `3π/2 + i·(2π/N)`, consecutive topics are separated by exactly
`2π/N`, and for `N = 1` the single topic sits exactly at the start angle
`3π/2`, i.e. at `(center_x, center_y - 300)`. -/
theorem main_topics_evenly_spaced (n i : ℕ) (center_x center_y : ℝ)
    (hn : 1 ≤ n) (hi : i < n) :
    point_distance center_x center_y (main_topic_x center_x n i)
        (main_topic_y center_y n i) = 300 ∧
    main_topic_angle n i = 3 * π / 2 + i * (2 * π / n) ∧
    main_topic_angle n (i + 1) - main_topic_angle n i = 2 * π / n ∧
    (n = 1 → main_topic_x center_x n i = center_x ∧
      main_topic_y center_y n i = center_y - 300) := by
  refine ⟨?_, rfl, ?_, ?_⟩
  · exact point_distance_polar _ _ 300 _ (by norm_num)
  · unfold main_topic_angle
    push_cast
    ring
  · intro h1
    subst h1
    interval_cases i
    have ha : main_topic_angle 1 0 = 3 * π / 2 := by
      unfold main_topic_angle
      push_cast
      ring
    constructor
    · rw [main_topic_x, ha, cos_three_pi_div_two]
      ring
    · rw [main_topic_y, ha, sin_three_pi_div_two]
      ring

/-- Witness for C1 at a concrete input (`N = 2`, `i = 0`, center at origin). -/
theorem main_topics_evenly_spaced_witness :
    point_distance 0 0 (main_topic_x 0 2 0) (main_topic_y 0 2 0) = 300 :=
  (main_topics_evenly_spaced 2 0 0 0 (by norm_num) (by norm_num)).1

/-- C8: side classification is the deterministic function
`is_right_side = (topic_x > center_x)`: strictly right of the center gives
the right side, otherwise (including exact ties) the left side, so a topic
at exactly `center_x` always resolves to the left side. -/
theorem side_classification_deterministic (topic_x center_x : ℝ) :
    (topic_x > center_x → is_right_side topic_x center_x = true) ∧
    (topic_x ≤ center_x → is_right_side topic_x center_x = false) ∧
    is_right_side center_x center_x = false := by
  unfold is_right_side
  refine ⟨fun h => by simp [h], fun h => by simp [not_lt.mpr h], by simp⟩

/-- Witness for C8 at concrete inputs. -/
theorem side_classification_deterministic_witness :
    is_right_side 1 0 = true ∧ is_right_side 0 1 = false :=
  ⟨(side_classification_deterministic 1 0).1 (by norm_num),
   (side_classification_deterministic 0 1).2.1 (by norm_num)⟩

/-- C3: for `k > 1` subtopics, each subtopic is at radial distance exactly
230 (`branch_length`) from its parent, consecutive subtopics are separated
by exactly `(π/3)/(k-1)`, and the fan is inclusive of both endpoints: the
first subtopic sits at the axis minus 30° and the last at the axis plus 30°. -/
theorem subtopics_fan_spacing (right_side : Bool) (k i : ℕ) (px py : ℝ)
    (hk : 1 < k) (_hi : i < k) :
    point_distance px py (subtopic_x px right_side k i)
        (subtopic_y py right_side k i) = 230 ∧
    branch_angle_step k = (π / 3) / ((k : ℝ) - 1) ∧
    subtopic_angle right_side k (i + 1) - subtopic_angle right_side k i
      = (π / 3) / ((k : ℝ) - 1) ∧
    subtopic_angle right_side k 0 = branch_base_angle right_side - π / 6 ∧
    subtopic_angle right_side k (k - 1) = branch_base_angle right_side + π / 6 := by
  have hstep : branch_angle_step k = (π / 3) / ((k : ℝ) - 1) := by
    unfold branch_angle_step
    rw [if_pos hk]
  have hk1 : ((k : ℝ) - 1) ≠ 0 := by
    have : (2 : ℝ) ≤ (k : ℝ) := by exact_mod_cast hk
    intro h0
    nlinarith
  refine ⟨?_, hstep, ?_, ?_, ?_⟩
  · exact point_distance_polar _ _ 230 _ (by norm_num)
  · unfold subtopic_angle
    rw [hstep]
    push_cast
    ring
  · unfold subtopic_angle branch_start_angle
    push_cast
    ring
  · unfold subtopic_angle branch_start_angle
    rw [hstep, Nat.cast_sub (le_of_lt hk)]
    push_cast
    field_simp
    ring

/-- Witness for C3 at a concrete input (`k = 2`, `i = 0`). -/
theorem subtopics_fan_spacing_witness :
    point_distance 0 0 (subtopic_x 0 true 2 0) (subtopic_y 0 true 2 0) = 230 :=
  (subtopics_fan_spacing true 2 0 0 0 (by norm_num) (by norm_num)).1

/-- C2 counterexample: with exactly one subtopic on the right side, the
subtopic's angle is `-π/6`, not the axis angle `0`, and its y-coordinate
(parent at the origin) is `-115`, not the parent's `0`. -/
theorem single_subtopic_off_axis_cex :
    subtopic_angle true 1 0 ≠ branch_base_angle true ∧
    subtopic_y 0 true 1 0 = -115 ∧ (-115 : ℝ) ≠ 0 := by
  have ha : subtopic_angle true 1 0 = -(π / 6) := by
    unfold subtopic_angle branch_start_angle branch_base_angle branch_angle_step
    norm_num
    ring
  refine ⟨?_, ?_, by norm_num⟩
  · rw [ha, show branch_base_angle true = 0 from by unfold branch_base_angle; simp]
    intro h
    have hp : π = 0 := by linarith
    exact Real.pi_ne_zero hp
  · rw [subtopic_y, ha, Real.sin_neg, Real.sin_pi_div_six]
    ring

/-- C2 amended: with exactly one subtopic, the branch layout places it at
the start of the fan, `base_angle - π/6` (30° off the outward axis, the
`angle_step` being special-cased to 0), at radial distance 230 from the
parent; its y-coordinate is `parent_y - 115` on the right side and
`parent_y + 115` on the left side — not on the parent's horizontal axis. -/
theorem single_subtopic_at_fan_start (px py : ℝ) (right_side : Bool) :
    subtopic_angle right_side 1 0 = branch_base_angle right_side - π / 6 ∧
    point_distance px py (subtopic_x px right_side 1 0)
        (subtopic_y py right_side 1 0) = 230 ∧
    subtopic_y py true 1 0 = py - 115 ∧
    subtopic_y py false 1 0 = py + 115 := by
  have ha : ∀ b : Bool, subtopic_angle b 1 0 = branch_base_angle b - π / 6 := by
    intro b
    unfold subtopic_angle branch_start_angle branch_angle_step
    norm_num
    ring
  refine ⟨ha right_side, point_distance_polar _ _ 230 _ (by norm_num), ?_, ?_⟩
  · rw [subtopic_y, ha true]
    unfold branch_base_angle
    rw [if_pos rfl, zero_sub, Real.sin_neg, Real.sin_pi_div_six]
    ring
  · rw [subtopic_y, ha false]
    unfold branch_base_angle
    rw [if_neg (by simp), Real.sin_sub, Real.sin_pi, Real.cos_pi, Real.sin_pi_div_six]
    ring

/-- C6: degenerate geometry is special-cased, never a division by zero:
for coincident connector endpoints the control point equals the midpoint
(which is the point itself), and for a single-child fan the angular step is
set to 0 rather than dividing by `count - 1 = 0`. -/
theorem degenerate_geometry_total :
    (∀ x y : ℝ, ctrl_point x y x y = (x, y)) ∧ branch_angle_step 1 = 0 := by
  constructor
  · intro x y
    unfold ctrl_point point_distance
    simp only [sub_self]
    norm_num
  · unfold branch_angle_step
    norm_num

/-- C5: swapping the connector endpoints mirrors the control point across
the segment: relative to the (shared) midpoint, the swapped control offset
is the exact negation of the original, the offset is perpendicular to the
segment, and its magnitude is `0.2 ×` the endpoint distance for both
orders.  The offset lying on the perpendicular through the midpoint makes
the point reflection through the midpoint coincide with the reflection
across the line through the endpoints. -/
theorem ctrl_point_swap_symmetric (x1 y1 x2 y2 : ℝ) (h : (x1, y1) ≠ (x2, y2)) :
    (ctrl_point x2 y2 x1 y1).1 - (x1 + x2) / 2
      = -((ctrl_point x1 y1 x2 y2).1 - (x1 + x2) / 2) ∧
    (ctrl_point x2 y2 x1 y1).2 - (y1 + y2) / 2
      = -((ctrl_point x1 y1 x2 y2).2 - (y1 + y2) / 2) ∧
    ((ctrl_point x1 y1 x2 y2).1 - (x1 + x2) / 2) * (x2 - x1)
      + ((ctrl_point x1 y1 x2 y2).2 - (y1 + y2) / 2) * (y2 - y1) = 0 ∧
    point_distance ((x1 + x2) / 2) ((y1 + y2) / 2)
        (ctrl_point x1 y1 x2 y2).1 (ctrl_point x1 y1 x2 y2).2
      = 0.2 * point_distance x1 y1 x2 y2 := by
  have hne : ¬ (x1 = x2 ∧ y1 = y2) := by simpa [Prod.ext_iff] using h
  have hpos : 0 < (x2 - x1) ^ 2 + (y2 - y1) ^ 2 := by
    rcases not_and_or.mp hne with hx | hy
    · have h2 : 0 < (x2 - x1) ^ 2 :=
        (sq_nonneg _).lt_of_ne (Ne.symm (pow_ne_zero 2 (sub_ne_zero.mpr (Ne.symm hx))))
      nlinarith [sq_nonneg (y2 - y1)]
    · have h2 : 0 < (y2 - y1) ^ 2 :=
        (sq_nonneg _).lt_of_ne (Ne.symm (pow_ne_zero 2 (sub_ne_zero.mpr (Ne.symm hy))))
      nlinarith [sq_nonneg (x2 - x1)]
  have hL : 0 < Real.sqrt ((x2 - x1) ^ 2 + (y2 - y1) ^ 2) := Real.sqrt_pos.mpr hpos
  have hL0 : Real.sqrt ((x2 - x1) ^ 2 + (y2 - y1) ^ 2) ≠ 0 := ne_of_gt hL
  have hswap : (x1 - x2) ^ 2 + (y1 - y2) ^ 2 = (x2 - x1) ^ 2 + (y2 - y1) ^ 2 := by
    ring
  have hc1 : (ctrl_point x1 y1 x2 y2).1 = (x1 + x2) / 2 - 0.2 * (y2 - y1) := by
    simp only [ctrl_point, point_distance]
    rw [if_pos hL]
    field_simp
    ring
  have hc2 : (ctrl_point x1 y1 x2 y2).2 = (y1 + y2) / 2 + 0.2 * (x2 - x1) := by
    simp only [ctrl_point, point_distance]
    rw [if_pos hL]
    field_simp
    ring
  have hc1s : (ctrl_point x2 y2 x1 y1).1 = (x1 + x2) / 2 + 0.2 * (y2 - y1) := by
    simp only [ctrl_point, point_distance]
    rw [hswap, if_pos hL]
    field_simp
    ring
  have hc2s : (ctrl_point x2 y2 x1 y1).2 = (y1 + y2) / 2 - 0.2 * (x2 - x1) := by
    simp only [ctrl_point, point_distance]
    rw [hswap, if_pos hL]
    field_simp
    ring
  refine ⟨?_, ?_, ?_, ?_⟩
  · rw [hc1s, hc1]
    ring
  · rw [hc2s, hc2]
    ring
  · rw [hc1, hc2]
    ring
  · have e : ((x1 + x2) / 2 - 0.2 * (y2 - y1) - (x1 + x2) / 2) ^ 2
        + ((y1 + y2) / 2 + 0.2 * (x2 - x1) - (y1 + y2) / 2) ^ 2
        = 0.04 * ((x2 - x1) ^ 2 + (y2 - y1) ^ 2) := by ring
    have h004 : Real.sqrt 0.04 = 0.2 := by
      rw [show (0.04 : ℝ) = 0.2 ^ 2 by norm_num, Real.sqrt_sq (by norm_num)]
    simp only [point_distance]
    rw [hc1, hc2, e, Real.sqrt_mul (by norm_num : (0 : ℝ) ≤ 0.04), h004]

/-- Witness for C5 at the concrete endpoints `(0,0)` and `(1,0)`. -/
theorem ctrl_point_swap_symmetric_witness :
    (ctrl_point 1 0 0 0).1 - (0 + 1) / 2 = -((ctrl_point 0 0 1 0).1 - (0 + 1) / 2) :=
  (ctrl_point_swap_symmetric 0 0 1 0 (by norm_num [Prod.ext_iff])).1

/-- C9: leaves sit on a single vertical line offset from the parent by
`+180` (`leaf_distance`) on the right side and `-180` on the left, stacked
downward with fixed spacing 80 (`v_spacing`), and the stack is vertically
centered on the parent: the mean of the `k` leaf y-coordinates equals the
parent's y-coordinate. -/
theorem leaf_stack_layout (parent_x parent_y : ℝ) (k i : ℕ)
    (hk : 1 ≤ k) (_hi : i < k) :
    leaf_x parent_x true = parent_x + 180 ∧
    leaf_x parent_x false = parent_x - 180 ∧
    leaf_y parent_y k i - leaf_y parent_y k (i + 1) = 80 ∧
    (∑ j in Finset.range k, leaf_y parent_y k j) / (k : ℝ) = parent_y := by
  have hk0 : (k : ℝ) ≠ 0 := Nat.cast_ne_zero.mpr (by omega)
  refine ⟨?_, ?_, ?_, ?_⟩
  · rw [leaf_x, if_pos rfl]
    ring
  · rw [leaf_x, if_neg (by simp)]
    ring
  · unfold leaf_y
    push_cast
    ring
  · have hgauss : (∑ j in Finset.range k, (j : ℝ)) = (k : ℝ) * ((k : ℝ) - 1) / 2 := by
      have h0 := Finset.sum_range_id_mul_two k
      have h1 := congrArg (fun m : ℕ => (m : ℝ)) h0
      push_cast [Nat.cast_sub hk] at h1
      linarith
    have hsum : (∑ j in Finset.range k, leaf_y parent_y k j) = (k : ℝ) * parent_y := by
      simp only [leaf_y, leaf_start_y]
      rw [Finset.sum_sub_distrib, Finset.sum_const, Finset.card_range, ← Finset.sum_mul,
        hgauss, nsmul_eq_mul]
      ring
    rw [hsum]
    field_simp

/-- Witness for C9 at a concrete input (`k = 2`, `i = 0`). -/
theorem leaf_stack_layout_witness : leaf_x 0 true = 0 + 180 :=
  (leaf_stack_layout 0 0 2 0 (by norm_num) (by norm_num)).1

/-! ### Trace lemmas: the layout helpers never save the canvas -/

lemma isSave_false_of_mem_leaf (e : Event) (ls : List Topic) (px py pa : ℝ)
    (r : Bool) (h : e ∈ draw_leaf_layout ls px py pa r) : e.isSave = false := by
  rw [draw_leaf_layout] at h
  split at h
  · simp at h
  · simp only [List.mem_flatMap] at h
    obtain ⟨p, _, hmem⟩ := h
    simp only [List.mem_cons, List.not_mem_nil, or_false] at hmem
    rcases hmem with rfl | rfl <;> rfl

lemma isSave_false_of_mem_branch (e : Event) (ts : List Topic) (px py pa : ℝ)
    (r : Bool) (h : e ∈ draw_branch_layout ts px py pa r) : e.isSave = false := by
  rw [draw_branch_layout] at h
  split at h
  · simp at h
  · simp only [List.mem_flatMap] at h
    obtain ⟨p, _, hmem⟩ := h
    rw [List.mem_append] at hmem
    rcases hmem with hmem | hmem
    · simp only [List.mem_cons, List.not_mem_nil, or_false] at hmem
      rcases hmem with rfl | rfl <;> rfl
    · split at hmem
      · simp at hmem
      · exact isSave_false_of_mem_leaf e _ _ _ _ _ hmem

lemma isSave_false_of_mem_radial (e : Event) (ts : List Topic) (cx cy : ℝ)
    (h : e ∈ draw_radial_layout ts cx cy) : e.isSave = false := by
  rw [draw_radial_layout] at h
  split at h
  · simp at h
  · simp only [List.mem_flatMap] at h
    obtain ⟨p, _, hmem⟩ := h
    rw [List.mem_append] at hmem
    rcases hmem with hmem | hmem
    · simp only [List.mem_cons, List.not_mem_nil, or_false] at hmem
      rcases hmem with rfl | rfl <;> rfl
    · split at hmem
      · simp at hmem
      · exact isSave_false_of_mem_branch e _ _ _ _ _ hmem

lemma count_saves_radial (ts : List Topic) (cx cy : ℝ) :
    count_saves (draw_radial_layout ts cx cy) = 0 := by
  unfold count_saves
  rw [List.countP_eq_zero]
  intro e he
  simp [isSave_false_of_mem_radial e ts cx cy he]

/-- C7: `create_mindmap` saves the canvas exactly once on every input, and
on an empty (or absent) `main_topics` list it draws exactly one node (the
central topic) and no connectors. -/
theorem empty_tree_renders_central_only (h : Hierarchy) :
    count_saves (create_mindmap h) = 1 ∧
    (h.main_topics.getD [] = [] →
      count_nodes (create_mindmap h) = 1 ∧ count_conns (create_mindmap h) = 0) := by
  constructor
  · simp only [create_mindmap, count_saves]
    by_cases hm : (h.main_topics.getD []).isEmpty
    · rw [if_pos hm]
      rfl
    · rw [if_neg hm, List.countP_cons_of_neg _ _ (by simp [Event.isSave]),
        List.countP_append]
      have h0 := count_saves_radial (h.main_topics.getD []) (page_width / 2)
        (page_height / 2)
      unfold count_saves at h0
      rw [h0]
      rfl
  · intro hmt
    constructor
    · simp only [create_mindmap, count_nodes]
      rw [hmt]
      rfl
    · simp only [create_mindmap, count_conns]
      rw [hmt]
      rfl

/-- Witness for C7: the hierarchy with both keys absent. -/
theorem empty_tree_renders_central_only_witness :
    count_nodes (create_mindmap ⟨none, none⟩) = 1 ∧
      count_conns (create_mindmap ⟨none, none⟩) = 0 :=
  (empty_tree_renders_central_only ⟨none, none⟩).2 rfl

/-! ### Depth truncation: the drawing never descends below the leaf level -/

lemma isEmpty_map_eq {α β : Type} (f : α → β) (l : List α) :
    (l.map f).isEmpty = l.isEmpty := by
  cases l <;> rfl

lemma draw_leaf_layout_map_strip (ls : List Topic) (px py pa : ℝ) (r : Bool) :
    draw_leaf_layout (ls.map strip_topic) px py pa r = draw_leaf_layout ls px py pa r := by
  simp only [draw_leaf_layout, isEmpty_map_eq, List.length_map, List.enum_map]
  rw [List.flatMap_map]
  refine congrArg _ (List.flatMap_congr fun p _ => ?_)
  rcases p with ⟨i, t⟩
  rfl

lemma draw_branch_layout_map_trunc (ts : List Topic) (px py pa : ℝ) (r : Bool) :
    draw_branch_layout (ts.map truncate_sub) px py pa r
      = draw_branch_layout ts px py pa r := by
  simp only [draw_branch_layout, isEmpty_map_eq, List.length_map, List.enum_map]
  rw [List.flatMap_map]
  refine congrArg _ (List.flatMap_congr fun p _ => ?_)
  rcases p with ⟨i, t⟩
  simp only [Prod.map, id]
  rw [show (truncate_sub t).text = t.text from rfl,
    show (truncate_sub t).subtopics = t.subtopics.map strip_topic from rfl,
    isEmpty_map_eq]
  by_cases hs : t.subtopics.isEmpty
  · rw [if_pos hs, if_pos hs]
  · rw [if_neg hs, if_neg hs, draw_leaf_layout_map_strip]

lemma draw_radial_layout_map_trunc (ts : List Topic) (cx cy : ℝ) :
    draw_radial_layout (ts.map truncate_main) cx cy = draw_radial_layout ts cx cy := by
  simp only [draw_radial_layout, isEmpty_map_eq, List.length_map, List.enum_map]
  rw [List.flatMap_map]
  refine congrArg _ (List.flatMap_congr fun p _ => ?_)
  rcases p with ⟨i, t⟩
  simp only [Prod.map, id]
  rw [show (truncate_main t).text = t.text from rfl,
    show (truncate_main t).subtopics = t.subtopics.map truncate_sub from rfl,
    isEmpty_map_eq]
  by_cases hs : t.subtopics.isEmpty
  · rw [if_pos hs, if_pos hs]
  · rw [if_neg hs, if_neg hs, draw_branch_layout_map_trunc]

lemma countP_flatMap {α : Type} (p : Event → Bool) (l : List α) (f : α → List Event) :
    (l.flatMap f).countP p = (l.map fun a => (f a).countP p).sum := by
  induction l with
  | nil => rfl
  | cons a t ih => simp [List.flatMap_cons, List.countP_append, ih]

lemma map_enum_snd {α β : Type} (l : List α) (g : α → β) :
    l.enum.map (fun p => g p.2) = l.map g := by
  rw [show (fun p : ℕ × α => g p.2) = g ∘ Prod.snd from rfl, ← List.map_map,
    List.enum_map_snd]

lemma count_nodes_leaf (ls : List Topic) (px py pa : ℝ) (r : Bool) :
    count_nodes (draw_leaf_layout ls px py pa r) = ls.length := by
  unfold count_nodes draw_leaf_layout
  split
  · rename_i hls
    rw [List.isEmpty_iff.mp hls]
    rfl
  · rw [countP_flatMap]
    have h1 : (ls.enum.map fun p =>
        List.countP Event.isNode
          [Event.conn px py (leaf_x px r) (leaf_y py ls.length p.1) false,
           Event.node p.2.text (leaf_x px r) (leaf_y py ls.length p.1) NodeKind.leaf])
        = ls.enum.map fun _ => 1 :=
      List.map_congr_left fun p _ => rfl
    rw [h1, List.map_const', List.sum_replicate, List.enum_length, smul_eq_mul, mul_one]

lemma count_nodes_branch (ts : List Topic) (px py pa : ℝ) (r : Bool) :
    count_nodes (draw_branch_layout ts px py pa r)
      = (ts.map fun s => 1 + s.subtopics.length).sum := by
  unfold count_nodes draw_branch_layout
  split
  · rename_i hts
    rw [List.isEmpty_iff.mp hts]
    rfl
  · rw [countP_flatMap]
    have hch : ∀ p ∈ ts.enum,
        (([Event.conn px py (subtopic_x px r ts.length p.1)
              (subtopic_y py r ts.length p.1) true,
           Event.node p.2.text (subtopic_x px r ts.length p.1)
              (subtopic_y py r ts.length p.1) NodeKind.sub]
          ++ (if p.2.subtopics.isEmpty then [] else
              draw_leaf_layout p.2.subtopics (subtopic_x px r ts.length p.1)
                (subtopic_y py r ts.length p.1)
                (subtopic_angle r ts.length p.1) r)).countP Event.isNode)
          = 1 + p.2.subtopics.length := by
      intro p _
      rw [List.countP_append]
      by_cases hs : p.2.subtopics.isEmpty
      · rw [if_pos hs, List.isEmpty_iff.mp hs]
        rfl
      · rw [if_neg hs]
        have hleaf := count_nodes_leaf p.2.subtopics (subtopic_x px r ts.length p.1)
          (subtopic_y py r ts.length p.1) (subtopic_angle r ts.length p.1) r
        unfold count_nodes at hleaf
        rw [hleaf]
        rfl
    rw [List.map_congr_left hch,
      show (fun a : ℕ × Topic => 1 + a.2.subtopics.length)
        = (fun s : Topic => 1 + s.subtopics.length) ∘ Prod.snd from rfl,
      ← List.map_map, List.enum_map_snd]

lemma count_nodes_radial (ts : List Topic) (cx cy : ℝ) :
    count_nodes (draw_radial_layout ts cx cy) = (ts.map topic_count3).sum := by
  unfold count_nodes draw_radial_layout
  split
  · rename_i hts
    rw [List.isEmpty_iff.mp hts]
    rfl
  · rw [countP_flatMap]
    have hch : ∀ p ∈ ts.enum,
        (([Event.conn cx cy (main_topic_x cx ts.length p.1)
              (main_topic_y cy ts.length p.1) true,
           Event.node p.2.text (main_topic_x cx ts.length p.1)
              (main_topic_y cy ts.length p.1) NodeKind.main]
          ++ (if p.2.subtopics.isEmpty then [] else
              draw_branch_layout p.2.subtopics (main_topic_x cx ts.length p.1)
                (main_topic_y cy ts.length p.1) (main_topic_angle ts.length p.1)
                (is_right_side (main_topic_x cx ts.length p.1) cx))).countP
            Event.isNode)
          = topic_count3 p.2 := by
      intro p _
      rw [List.countP_append]
      unfold topic_count3
      by_cases hs : p.2.subtopics.isEmpty
      · rw [if_pos hs, List.isEmpty_iff.mp hs]
        rfl
      · rw [if_neg hs]
        have hbr := count_nodes_branch p.2.subtopics (main_topic_x cx ts.length p.1)
          (main_topic_y cy ts.length p.1) (main_topic_angle ts.length p.1)
          (is_right_side (main_topic_x cx ts.length p.1) cx)
        unfold count_nodes at hbr
        rw [hbr]
        rfl
    rw [List.map_congr_left hch,
      show (fun a : ℕ × Topic => topic_count3 a.2) = topic_count3 ∘ Prod.snd from rfl,
      ← List.map_map, List.enum_map_snd]

/-- C10: nodes nested more than three levels below the central topic are
silently omitted: the trace of `create_mindmap` is unchanged when every
child of a depth-3 node is deleted (`truncate_hierarchy`), and the number
of node boxes drawn is exactly the central node plus the depth-at-most-3
topics (`node_count3`) — deeper nesting neither draws nodes nor connectors
nor causes an error, the embedding being total. -/
theorem deep_nodes_omitted (h : Hierarchy) :
    create_mindmap (truncate_hierarchy h) = create_mindmap h ∧
    count_nodes (create_mindmap h) = node_count3 h := by
  constructor
  · simp only [create_mindmap, truncate_hierarchy]
    cases hm : h.main_topics with
    | none => rfl
    | some l =>
      rw [show (Option.map (fun l : List Topic => l.map truncate_main) (some l)).getD []
          = l.map truncate_main from rfl,
        show (some l).getD ([] : List Topic) = l from rfl, isEmpty_map_eq]
      by_cases hl : l.isEmpty
      · rw [if_pos hl, if_pos hl]
      · rw [if_neg hl, if_neg hl, draw_radial_layout_map_trunc]
  · simp only [create_mindmap, count_nodes, node_count3]
    by_cases hm : (h.main_topics.getD []).isEmpty
    · rw [if_pos hm, List.isEmpty_iff.mp hm]
      rfl
    · rw [if_neg hm, List.countP_cons, List.countP_append]
      have hr := count_nodes_radial (h.main_topics.getD []) (page_width / 2)
        (page_height / 2)
      unfold count_nodes at hr
      rw [hr]
      simp [Event.isNode, List.countP_cons, List.countP_nil]
      omega

/-! ### Text wrapper lemmas -/

/-- A word produced by `split()`: nonempty and whitespace-free. -/
def word_ok (w : List Char) : Prop := w ≠ [] ∧ ∀ c ∈ w, c.isWhitespace = false

lemma join_space_singleton (w : List Char) : join_space [w] = w := by
  simp [join_space, List.intercalate]

lemma join_space_cons_cons (a b : List Char) (t : List (List Char)) :
    join_space (a :: b :: t) = a ++ ' ' :: join_space (b :: t) := by
  simp [join_space, List.intercalate, List.intersperse]

lemma split_words_aux_all_ok (cs : List Char) :
    ∀ acc, (∀ c ∈ acc, c.isWhitespace = false) →
      ∀ w ∈ split_words_aux cs acc, word_ok w := by
  induction cs with
  | nil =>
    intro acc hacc w hw
    simp only [split_words_aux] at hw
    split at hw
    · simp at hw
    · rename_i hne
      simp only [List.mem_singleton] at hw
      subst hw
      refine ⟨?_, ?_⟩
      · intro h0
        exact hne (List.isEmpty_iff.mpr (List.reverse_eq_nil_iff.mp h0))
      · intro c hc
        exact hacc c (List.mem_reverse.mp hc)
  | cons c cs ih =>
    intro acc hacc w hw
    simp only [split_words_aux] at hw
    by_cases hws : c.isWhitespace = true
    · rw [if_pos hws] at hw
      split at hw
      · exact ih [] (by simp) w hw
      · rename_i hne
        rcases List.mem_cons.mp hw with rfl | hw2
        · refine ⟨?_, ?_⟩
          · intro h0
            exact hne (List.isEmpty_iff.mpr (List.reverse_eq_nil_iff.mp h0))
          · intro d hd
            exact hacc d (List.mem_reverse.mp hd)
        · exact ih [] (by simp) w hw2
    · rw [if_neg hws] at hw
      refine ih (c :: acc) ?_ w hw
      intro d hd
      rcases List.mem_cons.mp hd with rfl | hd2
      · exact Bool.not_eq_true _ ▸ hws
      · exact hacc d hd2

lemma split_words_all_ok (text : List Char) : ∀ w ∈ split_words text, word_ok w :=
  split_words_aux_all_ok text [] (by simp)

lemma split_words_aux_append_word (w : List Char) :
    ∀ (cs acc : List Char), (∀ c ∈ w, c.isWhitespace = false) →
      split_words_aux (w ++ cs) acc = split_words_aux cs (w.reverse ++ acc) := by
  induction w with
  | nil => intro cs acc _; simp
  | cons c w ih =>
    intro cs acc hw
    have hc : c.isWhitespace = false := hw c (by simp)
    simp only [List.cons_append, split_words_aux, hc, Bool.false_eq_true, if_false]
    show split_words_aux (w ++ cs) (c :: acc) = split_words_aux cs ((c :: w).reverse ++ acc)
    rw [ih cs (c :: acc) (fun d hd => hw d (List.mem_cons_of_mem c hd))]
    simp [List.reverse_cons, List.append_assoc]

lemma split_words_aux_space (cs acc : List Char) :
    split_words_aux (' ' :: cs) acc
      = if acc.isEmpty then split_words_aux cs []
        else acc.reverse :: split_words_aux cs [] := by
  rw [split_words_aux, if_pos (by decide : (' ' : Char).isWhitespace = true)]

/-- Splitting the space-join of nonempty, whitespace-free words recovers
exactly the word list. -/
lemma split_words_join_space (g : List (List Char)) (hg : ∀ w ∈ g, word_ok w)
    (hne : g ≠ []) : split_words (join_space g) = g := by
  induction g with
  | nil => exact absurd rfl hne
  | cons w g ih =>
    have hw := hg w (by simp)
    have hwrev : ¬ w.reverse.isEmpty = true := by
      intro h0
      exact hw.1 (List.reverse_eq_nil_iff.mp (List.isEmpty_iff.mp h0))
    cases g with
    | nil =>
      rw [join_space_singleton]
      unfold split_words
      rw [← List.append_nil w, split_words_aux_append_word w [] [] hw.2]
      rw [List.append_nil w]
      simp only [split_words_aux, List.append_nil]
      rw [if_neg hwrev, List.reverse_reverse]
    | cons w2 g2 =>
      rw [join_space_cons_cons]
      unfold split_words
      rw [split_words_aux_append_word w (' ' :: join_space (w2 :: g2)) [] hw.2]
      rw [List.append_nil, split_words_aux_space, if_neg hwrev, List.reverse_reverse]
      have htail := ih (fun u hu => hg u (List.mem_cons_of_mem w hu)) (by simp)
      unfold split_words at htail
      rw [htail]

/-- The greedy accumulation loop of `_wrap_text` preserves every word in
order: re-splitting its output lines reproduces the pending words. -/
lemma wrap_words_flatMap (max_width : ℕ) (ws : List (List Char)) :
    ∀ current, (∀ w ∈ current, word_ok w) → (∀ w ∈ ws, word_ok w) →
      (wrap_words max_width current ws).flatMap split_words = current ++ ws := by
  induction ws with
  | nil =>
    intro current hcur _
    simp only [wrap_words]
    split
    · rename_i hemp
      rw [List.isEmpty_iff.mp hemp]
      rfl
    · rename_i hemp
      simp only [List.flatMap_cons, List.flatMap_nil, List.append_nil]
      exact split_words_join_space current hcur
        (fun h0 => hemp (List.isEmpty_iff.mpr h0))
  | cons word ws ih =>
    intro current hcur hws
    simp only [wrap_words]
    split
    · rename_i hcond
      simp only [List.flatMap_cons]
      rw [split_words_join_space current hcur
        (fun h0 => hcond.1 (List.isEmpty_iff.mpr h0))]
      rw [ih [word] (by simpa using hws word (by simp))
        (fun u hu => hws u (List.mem_cons_of_mem word hu))]
      simp
    · rw [ih (current ++ [word]) ?_ (fun u hu => hws u (List.mem_cons_of_mem word hu))]
      · simp
      · intro u hu
        rcases List.mem_append.mp hu with hu1 | hu2
        · exact hcur u hu1
        · simp only [List.mem_singleton] at hu2
          subst hu2
          exact hws u (by simp)

/-- C4: for every input string and positive maximum line width, the wrapper
returns at most 4 lines; when no truncation happens (the greedy wrap stays
within 4 lines), re-splitting the output lines reproduces exactly the
whitespace-separated words of the input in order; when the greedy wrap
exceeds 4 lines, the result is exactly its first 3 lines followed by a
literal `"..."` line; and a nonblank input never loses its text entirely. -/
theorem wrap_text_spec (text : List Char) (max_width : ℕ) (_hpos : 0 < max_width) :
    (wrap_text text max_width).length ≤ 4 ∧
    ((wrap_lines text max_width).length ≤ 4 →
      (wrap_text text max_width).flatMap split_words = split_words text) ∧
    ((wrap_lines text max_width).length > 4 →
      wrap_text text max_width = (wrap_lines text max_width).take 3 ++ [['.', '.', '.']]) ∧
    (split_words text ≠ [] → wrap_text text max_width ≠ []) := by
  have hflat : (wrap_lines text max_width).flatMap split_words = split_words text := by
    have h := wrap_words_flatMap max_width (split_words text) [] (by simp)
      (split_words_all_ok text)
    simpa [wrap_lines] using h
  refine ⟨?_, ?_, ?_, ?_⟩
  · simp only [wrap_text]
    split
    · simp only [List.length_append, List.length_take, List.length_singleton]
      omega
    · omega
  · intro h4
    simp only [wrap_text]
    rw [if_neg (by omega)]
    exact hflat
  · intro h4
    simp only [wrap_text]
    rw [if_pos h4]
  · intro hne
    simp only [wrap_text]
    split
    · simp
    · intro h0
      rw [h0] at hflat
      exact hne hflat.symm

/-- Witness for C4 at a concrete input whose greedy wrap exceeds 4 lines. -/
theorem wrap_text_spec_witness :
    wrap_text ("hello world this is a mind map node label" : String).data 6
      = (wrap_lines ("hello world this is a mind map node label" : String).data 6).take 3
        ++ [['.', '.', '.']] :=
  (wrap_text_spec ("hello world this is a mind map node label" : String).data 6
    (by norm_num)).2.2.1 (by decide)

end XMind
